import Mathlib

/-!
Verification of the waterfall/bridge chart layout algorithm of
`src/Dashboards/generate_mockups.py` (the `_waterfall` helper, lines 333-358,
and its inlined copies in `db_production_variance`, `db_pl_waterfall` and
`db_cash_flow`).

Numbers are embedded as rationals `ℚ`; the Python floats at every call site
are short decimal literals, and the layout algorithm uses only `+`, unary `-`,
`abs` and sign comparisons, so the rational embedding mirrors the source
arithmetic exactly except for floating-point rounding, which is out of scope.
-/

namespace Waterfall

/-- The three matplotlib color constants the layout appends: `ACCENT_BLUE`
for the two anchor bars, `GREEN` for a non-negative interior delta, `RED`
for a negative interior delta. -/
inductive Color where
  | ACCENT_BLUE
  | GREEN
  | RED
deriving DecidableEq

/-- Spec name for the anchor color: the source uses `ACCENT_BLUE` for the
START and END bars. -/
def ANCHOR : Color := Color.ACCENT_BLUE

/-- Spec name for the increase color: the source uses `GREEN` for a
non-negative interior delta. -/
def INCREASE : Color := Color.GREEN

/-- Spec name for the decrease color: the source uses `RED` for a negative
interior delta. -/
def DECREASE : Color := Color.RED

/-- One entry of the three parallel lists `bottoms`, `bar_vals`, `colors`
built by the source loop (the spec's `BridgeBar`, minus the display string). -/
structure Bar where
  bottom : ℚ
  height : ℚ
  color : Color
deriving DecidableEq

instance : Inhabited Bar := ⟨⟨0, 0, Color.ACCENT_BLUE⟩⟩

/-- The loop of `_waterfall` (`generate_mockups.py` lines 340-358):

```
for i, v in enumerate(values):
    if i == 0:
        bottoms.append(0); bar_vals.append(v); colors.append(ACCENT_BLUE)
    elif i == n - 1:
        bottoms.append(0)
        bar_vals.append(running + v if v != 0 else running)
        colors.append(ACCENT_BLUE)
    else:
        if v >= 0:
            bottoms.append(running); bar_vals.append(v); colors.append(GREEN)
        else:
            bottoms.append(running + v); bar_vals.append(abs(v)); colors.append(RED)
        running += v
```

`n` is `len(categories)`; `i` is the enumeration index; the result pairs the
bar list with the final value of `running`. -/
def waterfallGo (n : ℕ) : ℕ → ℚ → List ℚ → List Bar × ℚ
  | _, running, [] => ([], running)
  | i, running, v :: rest =>
    if i = 0 then
      let r := waterfallGo n (i + 1) running rest
      (⟨0, v, Color.ACCENT_BLUE⟩ :: r.1, r.2)
    else if i = n - 1 then
      let r := waterfallGo n (i + 1) running rest
      (⟨0, if v ≠ 0 then running + v else running, Color.ACCENT_BLUE⟩ :: r.1, r.2)
    else if 0 ≤ v then
      let r := waterfallGo n (i + 1) (running + v) rest
      (⟨running, v, Color.GREEN⟩ :: r.1, r.2)
    else
      let r := waterfallGo n (i + 1) (running + v) rest
      (⟨running + v, |v|, Color.RED⟩ :: r.1, r.2)

/-- `_waterfall`'s layout computation: `running = start_val`, then the
enumeration loop over `values` with `n = len(categories)`. -/
def waterfall (n : ℕ) (start_val : ℚ) (values : List ℚ) : List Bar × ℚ :=
  waterfallGo n 0 start_val values

/-- A step sequence of length at least 2, decomposed as the start value,
the interior deltas, and the last (placeholder) value; every list of length
`≥ 2` has exactly one such decomposition. -/
def stepsOf (v0 : ℚ) (mid : List ℚ) (vl : ℚ) : List ℚ := v0 :: (mid ++ [vl])

/-- The bar list the source layout produces for a step sequence, with
`start_val = steps[0]` and `n = len(values)` as at every call site. -/
def computeBars (v0 : ℚ) (mid : List ℚ) (vl : ℚ) : List Bar :=
  (waterfall (stepsOf v0 mid vl).length v0 (stepsOf v0 mid vl)).1

/-- The final value of the `running` accumulator for a step sequence. -/
def finalTotal (v0 : ℚ) (mid : List ℚ) (vl : ℚ) : ℚ :=
  (waterfall (stepsOf v0 mid vl).length v0 (stepsOf v0 mid vl)).2

/-- The running total before step `i`: the start value plus the interior
deltas of the steps preceding `i` (before step 0 this is `0`). -/
def runningBefore (values : List ℚ) (i : ℕ) : ℚ := (values.take i).sum

/-- The running total after step `i`: the start value plus the interior
deltas of the steps up to and including `i`. -/
def runningAfter (values : List ℚ) (i : ℕ) : ℚ := (values.take (i + 1)).sum

/-- The interior branch of the loop in isolation: process a list of interior
deltas from a given running total. -/
def interior (running : ℚ) : List ℚ → List Bar × ℚ
  | [] => ([], running)
  | v :: rest =>
    let bar : Bar :=
      if 0 ≤ v then ⟨running, v, Color.GREEN⟩ else ⟨running + v, |v|, Color.RED⟩
    let r := interior (running + v) rest
    (bar :: r.1, r.2)

/-- The spec's single error kind. -/
inductive LayoutError where
  | InvalidInput
deriving DecidableEq

/-- Modelled from the spec: the validating `computeBars` of spec §4.1/§7,
which is absent from the source (`_waterfall` performs no input checking).
`InvalidInput` is returned for fewer than 2 steps; the spec's non-finite
check has no counterpart over `ℚ`, where every value is finite. Otherwise
the layout is the one of `_waterfall`. -/
def computeBarsChecked (steps : List ℚ) : Except LayoutError (List Bar × ℚ) :=
  if steps.length < 2 then Except.error LayoutError.InvalidInput
  else Except.ok (waterfall steps.length (steps.headD 0) steps)

/-- `db_pl_waterfall` line 460: `vals = [3.84, 1.52, -0.72, -0.35, 0.12, -0.08, 0.40, 0]`. -/
def db_pl_vals : List ℚ := [3.84, 1.52, -0.72, -0.35, 0.12, -0.08, 0.40, 0]

/-- `db_pl_waterfall` lines 461-463: `running = 3.84` then `running += v`
for `v` in `vals[1:-1]`. -/
def db_pl_running : ℚ := ((db_pl_vals.drop 1).dropLast).foldl (fun r v => r + v) 3.84

/-- `db_cash_flow` line 582: `vals = [27.7, 18.2, -12.5, -4.1, -0.8, 0]`. -/
def db_cash_vals : List ℚ := [27.7, 18.2, -12.5, -4.1, -0.8, 0]

/-- `db_cash_flow` lines 583-585: `running = 27.7` then `running += v`
for `v` in `vals[1:-1]`. -/
def db_cash_running : ℚ := ((db_cash_vals.drop 1).dropLast).foldl (fun r v => r + v) 27.7

theorem interior_length (vs : List ℚ) : ∀ r : ℚ, (interior r vs).1.length = vs.length := by
  induction vs with
  | nil => intro r; simp [interior]
  | cons v vs ih => intro r; simp [interior, ih]

theorem interior_snd (vs : List ℚ) : ∀ r : ℚ, (interior r vs).2 = r + vs.sum := by
  induction vs with
  | nil => intro r; simp [interior]
  | cons v vs ih => intro r; simp [interior, ih]; ring

theorem interior_getD (vs : List ℚ) :
    ∀ (r : ℚ) (j : ℕ), j < vs.length →
      (interior r vs).1.getD j default =
        if 0 ≤ vs.getD j 0 then
          ⟨r + (vs.take j).sum, vs.getD j 0, Color.GREEN⟩
        else
          ⟨r + (vs.take j).sum + vs.getD j 0, |vs.getD j 0|, Color.RED⟩ := by
  induction vs with
  | nil => intro r j hj; simp at hj
  | cons v vs ih =>
    intro r j hj
    cases j with
    | zero => simp [interior]
    | succ j =>
      have hj' : j < vs.length := by simpa using hj
      simp only [interior, List.getD_cons_succ, List.take_succ_cons, List.sum_cons]
      rw [ih (r + v) j hj']
      split <;> simp <;> ring_nf

theorem take_append_le (l₁ l₂ : List ℚ) (n : ℕ) (h : n ≤ l₁.length) :
    (l₁ ++ l₂).take n = l₁.take n := by
  rw [List.take_append_eq_append_take, Nat.sub_eq_zero_of_le h]
  simp

theorem take_sum_getD (l : List ℚ) :
    ∀ j : ℕ, j < l.length → (l.take (j + 1)).sum = (l.take j).sum + l.getD j 0 := by
  induction l with
  | nil => intro j hj; simp at hj
  | cons v l ih =>
    intro j hj
    cases j with
    | zero => simp
    | succ j =>
      have hj' : j < l.length := by simpa using hj
      simp only [List.take_succ_cons, List.sum_cons, List.getD_cons_succ]
      rw [ih j hj']
      ring

theorem waterfallGo_eq_interior (n : ℕ) (vl : ℚ) (mid : List ℚ) :
    ∀ (i : ℕ) (running : ℚ), 1 ≤ i → i + (mid.length + 1) = n →
      waterfallGo n i running (mid ++ [vl]) =
        ((interior running mid).1 ++
          [⟨0,
            if vl ≠ 0 then (interior running mid).2 + vl else (interior running mid).2,
            Color.ACCENT_BLUE⟩],
         (interior running mid).2) := by
  induction mid with
  | nil =>
    intro i running h1 h2
    simp only [List.length_nil] at h2
    have h0 : ¬ i = 0 := by omega
    have hl : i = n - 1 := by omega
    simp [waterfallGo, h0, hl, interior]
    intro h
    exact absurd h (by omega)
  | cons v mid ih =>
    intro i running h1 h2
    simp only [List.length_cons] at h2
    have h0 : ¬ i = 0 := by omega
    have hl : ¬ i = n - 1 := by omega
    have hrec := ih (i + 1) (running + v) (by omega) (by omega)
    by_cases hv : 0 ≤ v
    · simp [waterfallGo, h0, hl, hv, interior, hrec]
    · simp [waterfallGo, h0, hl, hv, interior, hrec]

theorem stepsOf_length (v0 vl : ℚ) (mid : List ℚ) :
    (stepsOf v0 mid vl).length = mid.length + 2 := by
  simp [stepsOf]

theorem waterfall_spec (v0 vl : ℚ) (mid : List ℚ) :
    waterfall (mid.length + 2) v0 (stepsOf v0 mid vl) =
      (⟨0, v0, Color.ACCENT_BLUE⟩ :: (interior v0 mid).1 ++
        [⟨0, if vl ≠ 0 then v0 + mid.sum + vl else v0 + mid.sum, Color.ACCENT_BLUE⟩],
       v0 + mid.sum) := by
  unfold waterfall stepsOf
  have h := waterfallGo_eq_interior (mid.length + 2) vl mid 1 v0 (by omega) (by omega)
  simp [waterfallGo, h, interior_snd]

theorem computeBars_eq (v0 vl : ℚ) (mid : List ℚ) :
    computeBars v0 mid vl =
      ⟨0, v0, Color.ACCENT_BLUE⟩ :: (interior v0 mid).1 ++
        [⟨0, if vl ≠ 0 then v0 + mid.sum + vl else v0 + mid.sum, Color.ACCENT_BLUE⟩] := by
  unfold computeBars
  rw [stepsOf_length, waterfall_spec]

theorem finalTotal_eq (v0 vl : ℚ) (mid : List ℚ) :
    finalTotal v0 mid vl = v0 + mid.sum := by
  unfold finalTotal
  rw [stepsOf_length, waterfall_spec]

theorem ite_last_height (R vl : ℚ) :
    (if vl ≠ 0 then R + vl else R) = R + vl := by
  by_cases h : vl = 0 <;> simp [h]

theorem computeBars_getD_zero (v0 vl : ℚ) (mid : List ℚ) :
    (computeBars v0 mid vl).getD 0 default = ⟨0, v0, Color.ACCENT_BLUE⟩ := by
  rw [computeBars_eq]
  rfl

theorem computeBars_getD_interior (v0 vl : ℚ) (mid : List ℚ) (i : ℕ)
    (h1 : 1 ≤ i) (h2 : i ≤ mid.length) :
    (computeBars v0 mid vl).getD i default = (interior v0 mid).1.getD (i - 1) default := by
  rw [computeBars_eq]
  obtain ⟨j, rfl⟩ : ∃ j, i = j + 1 := ⟨i - 1, by omega⟩
  simp only [List.cons_append, List.getD_cons_succ, Nat.add_sub_cancel]
  exact List.getD_append _ _ _ _ (by rw [interior_length]; omega)

theorem computeBars_getD_last (v0 vl : ℚ) (mid : List ℚ) :
    (computeBars v0 mid vl).getD (mid.length + 1) default =
      ⟨0, v0 + mid.sum + vl, Color.ACCENT_BLUE⟩ := by
  rw [computeBars_eq]
  simp only [List.cons_append, List.getD_cons_succ]
  rw [List.getD_append_right _ _ _ _ (by rw [interior_length])]
  rw [interior_length, Nat.sub_self]
  simp [ite_last_height]

theorem stepsOf_getD (v0 vl : ℚ) (mid : List ℚ) (i : ℕ)
    (h1 : 1 ≤ i) (h2 : i ≤ mid.length) :
    (stepsOf v0 mid vl).getD i 0 = mid.getD (i - 1) 0 := by
  unfold stepsOf
  obtain ⟨j, rfl⟩ : ∃ j, i = j + 1 := ⟨i - 1, by omega⟩
  simp only [List.getD_cons_succ, Nat.add_sub_cancel]
  exact List.getD_append _ _ _ _ (by omega)

theorem runningBefore_stepsOf (v0 vl : ℚ) (mid : List ℚ) (i : ℕ)
    (h1 : 1 ≤ i) (h2 : i ≤ mid.length + 1) :
    runningBefore (stepsOf v0 mid vl) i = v0 + (mid.take (i - 1)).sum := by
  unfold runningBefore stepsOf
  obtain ⟨j, rfl⟩ : ∃ j, i = j + 1 := ⟨i - 1, by omega⟩
  simp only [List.take_succ_cons, List.sum_cons, Nat.add_sub_cancel]
  rw [take_append_le _ _ _ (by omega)]

theorem runningAfter_stepsOf (v0 vl : ℚ) (mid : List ℚ) (i : ℕ)
    (h2 : i ≤ mid.length) :
    runningAfter (stepsOf v0 mid vl) i = v0 + (mid.take i).sum := by
  unfold runningAfter stepsOf
  simp only [List.take_succ_cons, List.sum_cons]
  rw [take_append_le _ _ _ (by omega)]

theorem runningAfter_eq_before_add (v0 vl : ℚ) (mid : List ℚ) (i : ℕ)
    (h1 : 1 ≤ i) (h2 : i ≤ mid.length) :
    runningAfter (stepsOf v0 mid vl) i =
      runningBefore (stepsOf v0 mid vl) i + (stepsOf v0 mid vl).getD i 0 := by
  rw [runningAfter_stepsOf v0 vl mid i h2, runningBefore_stepsOf v0 vl mid i h1 (by omega),
    stepsOf_getD v0 vl mid i h1 h2]
  obtain ⟨j, rfl⟩ : ∃ j, i = j + 1 := ⟨i - 1, by omega⟩
  rw [take_sum_getD mid j (by omega)]
  simp [add_assoc]

theorem runningBefore_zero (values : List ℚ) : runningBefore values 0 = 0 := by
  simp [runningBefore]

theorem runningAfter_zero (v0 vl : ℚ) (mid : List ℚ) :
    runningAfter (stepsOf v0 mid vl) 0 = v0 := by
  simp [runningAfter, stepsOf]

theorem computeBars_interior_char (v0 vl : ℚ) (mid : List ℚ) (i : ℕ)
    (h1 : 0 < i) (h2 : i < (stepsOf v0 mid vl).length - 1) :
    (computeBars v0 mid vl).getD i default =
      if 0 ≤ (stepsOf v0 mid vl).getD i 0 then
        (⟨runningBefore (stepsOf v0 mid vl) i, (stepsOf v0 mid vl).getD i 0,
          Color.GREEN⟩ : Bar)
      else
        ⟨runningBefore (stepsOf v0 mid vl) i + (stepsOf v0 mid vl).getD i 0,
         |(stepsOf v0 mid vl).getD i 0|, Color.RED⟩ := by
  have h2m : i ≤ mid.length := by rw [stepsOf_length] at h2; omega
  rw [computeBars_getD_interior v0 vl mid i h1 h2m,
    interior_getD mid v0 (i - 1) (by omega),
    ← runningBefore_stepsOf v0 vl mid i h1 (by omega),
    ← stepsOf_getD v0 vl mid i h1 h2m]

theorem waterfallGo_length (n : ℕ) (vs : List ℚ) :
    ∀ (i : ℕ) (r : ℚ), ((waterfallGo n i r vs).1).length = vs.length := by
  induction vs with
  | nil => intro i r; simp [waterfallGo]
  | cons v vs ih =>
    intro i r
    simp only [waterfallGo]
    split_ifs <;> simp [ih]

/-- C1: for every valid step sequence `v0 :: (mid ++ [vl])` and every interior
step `i` (`0 < i < last`), a non-negative delta yields a bar with bottom the
running total before `i`, height the delta, and the INCREASE color; a negative
delta yields a bar with bottom `runningBefore + delta`, height `-delta`, and
the DECREASE color; in both cases the bar occupies exactly the vertical span
between the running totals before and after step `i`. -/
theorem C1_interior_bar_layout (v0 vl : ℚ) (mid : List ℚ) (i : ℕ)
    (h1 : 0 < i) (h2 : i < (stepsOf v0 mid vl).length - 1) :
    (0 ≤ (stepsOf v0 mid vl).getD i 0 →
      (computeBars v0 mid vl).getD i default =
        ⟨runningBefore (stepsOf v0 mid vl) i, (stepsOf v0 mid vl).getD i 0, INCREASE⟩) ∧
    ((stepsOf v0 mid vl).getD i 0 < 0 →
      (computeBars v0 mid vl).getD i default =
        ⟨runningBefore (stepsOf v0 mid vl) i + (stepsOf v0 mid vl).getD i 0,
         -((stepsOf v0 mid vl).getD i 0), DECREASE⟩) ∧
    min ((computeBars v0 mid vl).getD i default).bottom
        (((computeBars v0 mid vl).getD i default).bottom +
         ((computeBars v0 mid vl).getD i default).height) =
      min (runningBefore (stepsOf v0 mid vl) i) (runningAfter (stepsOf v0 mid vl) i) ∧
    max ((computeBars v0 mid vl).getD i default).bottom
        (((computeBars v0 mid vl).getD i default).bottom +
         ((computeBars v0 mid vl).getD i default).height) =
      max (runningBefore (stepsOf v0 mid vl) i) (runningAfter (stepsOf v0 mid vl) i) := by
  have h2m : i ≤ mid.length := by rw [stepsOf_length] at h2; omega
  have hchar := computeBars_interior_char v0 vl mid i h1 h2
  have hra := runningAfter_eq_before_add v0 vl mid i h1 h2m
  by_cases hs : 0 ≤ (stepsOf v0 mid vl).getD i 0
  · rw [hchar, if_pos hs]
    refine ⟨fun _ => rfl, fun hneg => absurd hneg (not_lt.mpr hs), ?_, ?_⟩
    · rw [hra]
    · rw [hra]
  · push_neg at hs
    rw [hchar, if_neg (not_le.mpr hs)]
    refine ⟨fun hpos => absurd hpos (not_le.mpr hs), fun _ => ?_, ?_, ?_⟩
    · rw [abs_of_neg hs]; rfl
    · rw [abs_of_neg hs, hra]
      have hz : runningBefore (stepsOf v0 mid vl) i + (stepsOf v0 mid vl).getD i 0 +
          -((stepsOf v0 mid vl).getD i 0) = runningBefore (stepsOf v0 mid vl) i := by ring
      rw [hz, min_comm]
    · rw [abs_of_neg hs, hra]
      have hz : runningBefore (stepsOf v0 mid vl) i + (stepsOf v0 mid vl).getD i 0 +
          -((stepsOf v0 mid vl).getD i 0) = runningBefore (stepsOf v0 mid vl) i := by ring
      rw [hz, max_comm]

/-- C1 witness: the DECREASE branch at the concrete sequence `[10, -4, 3, 0]`,
interior step 1 with delta `-4`. -/
theorem C1_interior_bar_layout_witness :
    0 < 1 ∧ (1 : ℕ) < (stepsOf 10 [-4, 3] 0).length - 1 ∧
    (stepsOf 10 [-4, 3] 0).getD 1 0 < 0 ∧
    (computeBars 10 [-4, 3] 0).getD 1 default =
      ⟨runningBefore (stepsOf 10 [-4, 3] 0) 1 + (stepsOf 10 [-4, 3] 0).getD 1 0,
       -((stepsOf 10 [-4, 3] 0).getD 1 0), DECREASE⟩ :=
  ⟨by norm_num, by norm_num [stepsOf], by norm_num [stepsOf],
   (C1_interior_bar_layout 10 0 [-4, 3] 1 (by norm_num)
     (by norm_num [stepsOf])).2.1 (by norm_num [stepsOf])⟩

/-- C2 counterexample: for the sequence `[10, -4, 0]` the interior bar 1 has
bottom `6` and height `4`, so its top is `10`, the running total BEFORE
step 1, not the running total after it (`6`); the claim's equation
`bottom + height = runningTotalAfter` fails for a negative delta. -/
theorem C2_top_after_cex :
    ((computeBars 10 [-4] 0).getD 1 default).bottom +
        ((computeBars 10 [-4] 0).getD 1 default).height ≠
      runningAfter (stepsOf 10 [-4] 0) 1 := by
  norm_num [computeBars, stepsOf, waterfall, waterfallGo, runningAfter]

/-- C2 amended: for every interior bar, the bar's top `bottom + height` equals
the LARGER of the running totals before and after the step, and
`min(bottom, bottom + height)` equals the smaller of the two (for a
non-negative delta top = after and min = before; for a negative delta the two
are swapped); the running total before step 0 is 0 and after step 0 equals the
first step's delta. -/
theorem C2_bar_span_running_totals (v0 vl : ℚ) (mid : List ℚ) (i : ℕ)
    (h1 : 0 < i) (h2 : i < (stepsOf v0 mid vl).length - 1) :
    ((computeBars v0 mid vl).getD i default).bottom +
        ((computeBars v0 mid vl).getD i default).height =
      max (runningBefore (stepsOf v0 mid vl) i) (runningAfter (stepsOf v0 mid vl) i) ∧
    min ((computeBars v0 mid vl).getD i default).bottom
        (((computeBars v0 mid vl).getD i default).bottom +
         ((computeBars v0 mid vl).getD i default).height) =
      min (runningBefore (stepsOf v0 mid vl) i) (runningAfter (stepsOf v0 mid vl) i) ∧
    runningBefore (stepsOf v0 mid vl) 0 = 0 ∧
    runningAfter (stepsOf v0 mid vl) 0 = v0 := by
  have h2m : i ≤ mid.length := by rw [stepsOf_length] at h2; omega
  have hchar := computeBars_interior_char v0 vl mid i h1 h2
  have hra := runningAfter_eq_before_add v0 vl mid i h1 h2m
  refine ⟨?_, ?_, runningBefore_zero _, runningAfter_zero v0 vl mid⟩
  · by_cases hs : 0 ≤ (stepsOf v0 mid vl).getD i 0
    · rw [hchar, if_pos hs, hra]
      exact (max_eq_right (le_add_of_nonneg_right hs)).symm
    · push_neg at hs
      rw [hchar, if_neg (not_le.mpr hs), abs_of_neg hs, hra]
      have hz : runningBefore (stepsOf v0 mid vl) i + (stepsOf v0 mid vl).getD i 0 +
          -((stepsOf v0 mid vl).getD i 0) = runningBefore (stepsOf v0 mid vl) i := by ring
      rw [hz]
      exact (max_eq_left (by linarith)).symm
  · by_cases hs : 0 ≤ (stepsOf v0 mid vl).getD i 0
    · rw [hchar, if_pos hs, hra]
    · push_neg at hs
      rw [hchar, if_neg (not_le.mpr hs), abs_of_neg hs, hra]
      have hz : runningBefore (stepsOf v0 mid vl) i + (stepsOf v0 mid vl).getD i 0 +
          -((stepsOf v0 mid vl).getD i 0) = runningBefore (stepsOf v0 mid vl) i := by ring
      rw [hz, min_comm]

/-- C2 witness: the amended span invariant at the concrete sequence
`[10, -4, 0]`, interior step 1. -/
theorem C2_bar_span_running_totals_witness :
    0 < 1 ∧ (1 : ℕ) < (stepsOf 10 [-4] 0).length - 1 ∧
    (((computeBars 10 [-4] 0).getD 1 default).bottom +
        ((computeBars 10 [-4] 0).getD 1 default).height =
      max (runningBefore (stepsOf 10 [-4] 0) 1) (runningAfter (stepsOf 10 [-4] 0) 1) ∧
    min ((computeBars 10 [-4] 0).getD 1 default).bottom
        (((computeBars 10 [-4] 0).getD 1 default).bottom +
         ((computeBars 10 [-4] 0).getD 1 default).height) =
      min (runningBefore (stepsOf 10 [-4] 0) 1) (runningAfter (stepsOf 10 [-4] 0) 1) ∧
    runningBefore (stepsOf 10 [-4] 0) 0 = 0 ∧
    runningAfter (stepsOf 10 [-4] 0) 0 = 10) :=
  ⟨by norm_num, by norm_num [stepsOf],
   C2_bar_span_running_totals 10 0 [-4] 1 (by norm_num) (by norm_num [stepsOf])⟩

/-- C3 counterexample: in `_waterfall` the last step's delta is NOT ignored
when it is nonzero: on the sequence `[5, 3]` (start 5, no interior steps, last
delta 3) the final bar's height is `running + 3 = 8`, not the accumulated
running total `5`. -/
theorem C3_last_delta_cex :
    ((computeBars 5 [] 3).getD 1 default).height = 8 ∧
    finalTotal 5 [] 3 = 5 ∧
    ((computeBars 5 [] 3).getD 1 default).height ≠ finalTotal 5 [] 3 := by
  norm_num [computeBars, finalTotal, stepsOf, waterfall, waterfallGo]

/-- C3 amended: the final bar is emitted with bottom 0 and the ANCHOR color,
but its height is `finalTotal + last delta` (the source's
`running + v if v != 0 else running` always equals `running + v`); the last
step's delta is therefore ignored only when it is 0 — as it is at every call
site of the repository. -/
theorem C3_final_bar (v0 vl : ℚ) (mid : List ℚ) :
    (computeBars v0 mid vl).getD (mid.length + 1) default =
      ⟨0, finalTotal v0 mid vl + vl, ANCHOR⟩ := by
  rw [computeBars_getD_last, finalTotal_eq]
  rfl

/-- C4 counterexample: the source raises no error at all: on the single-step
input `[5]` the layout of `_waterfall` returns a normal one-bar result (the
index-0 branch fires), whereas the spec's validating `computeBars` — absent
from the source — would return `InvalidInput`. -/
theorem C4_no_error_cex :
    (waterfall 1 5 [5]).1 = [⟨0, 5, Color.ACCENT_BLUE⟩] ∧
    computeBarsChecked [5] = Except.error LayoutError.InvalidInput := by
  constructor
  · norm_num [waterfall, waterfallGo]
  · rfl

/-- C4 amended: the source performs no input validation and never raises: the
layout is a total function returning one bar per input value for every input,
including those with fewer than 2 steps, which the spec's `InvalidInput`
contract (modelled by `computeBarsChecked`) would reject. -/
theorem C4_no_validation (n : ℕ) (start : ℚ) (values : List ℚ) (v : ℚ) :
    ((waterfall n start values).1).length = values.length ∧
    computeBarsChecked [v] = Except.error LayoutError.InvalidInput :=
  ⟨waterfallGo_length n values 0 start, rfl⟩

/-- C5: for every valid step sequence, the final running total equals the
first step's delta plus the sum of all interior deltas; the last step's
delta `vl` does not occur in the result. -/
theorem C5_final_total (v0 vl : ℚ) (mid : List ℚ) :
    finalTotal v0 mid vl = v0 + mid.sum :=
  finalTotal_eq v0 vl mid

/-- C6: on the two concrete source step sequences, the P&L bridge running
total is `4.73` and the cash-flow bridge running total is `28.5`, both as the
source's precomputed `running` accumulator and as the layout's final running
total. -/
theorem C6_concrete_totals :
    db_pl_running = 4.73 ∧ db_cash_running = 28.5 ∧
    (waterfall db_pl_vals.length 3.84 db_pl_vals).2 = 4.73 ∧
    (waterfall db_cash_vals.length 27.7 db_cash_vals).2 = 28.5 := by
  refine ⟨?_, ?_, ?_, ?_⟩
  · norm_num [db_pl_running, db_pl_vals]
  · norm_num [db_cash_running, db_cash_vals]
  · norm_num [db_pl_vals, waterfall, waterfallGo]
  · norm_num [db_cash_vals, waterfall, waterfallGo]

/-- C7: an interior step whose delta is exactly 0 is classified as INCREASE
(the non-negative branch) and produces a zero-height bar at the current
running total, which the step leaves unchanged. -/
theorem C7_zero_delta (v0 vl : ℚ) (mid : List ℚ) (i : ℕ)
    (h1 : 0 < i) (h2 : i < (stepsOf v0 mid vl).length - 1)
    (h3 : (stepsOf v0 mid vl).getD i 0 = 0) :
    (computeBars v0 mid vl).getD i default =
      ⟨runningBefore (stepsOf v0 mid vl) i, 0, INCREASE⟩ ∧
    runningAfter (stepsOf v0 mid vl) i = runningBefore (stepsOf v0 mid vl) i := by
  have h2m : i ≤ mid.length := by rw [stepsOf_length] at h2; omega
  constructor
  · rw [computeBars_interior_char v0 vl mid i h1 h2, if_pos (by rw [h3]), h3]
    rfl
  · rw [runningAfter_eq_before_add v0 vl mid i h1 h2m, h3, add_zero]

/-- C7 witness: the zero-delta bar at the concrete sequence `[7, 0, 0]`,
interior step 1. -/
theorem C7_zero_delta_witness :
    0 < 1 ∧ (1 : ℕ) < (stepsOf 7 [0] 0).length - 1 ∧ (stepsOf 7 [0] 0).getD 1 0 = 0 ∧
    ((computeBars 7 [0] 0).getD 1 default =
      ⟨runningBefore (stepsOf 7 [0] 0) 1, 0, INCREASE⟩ ∧
    runningAfter (stepsOf 7 [0] 0) 1 = runningBefore (stepsOf 7 [0] 0) 1) :=
  ⟨by norm_num, by norm_num [stepsOf], by norm_num [stepsOf],
   C7_zero_delta 7 0 [0] 1 (by norm_num) (by norm_num [stepsOf]) (by norm_num [stepsOf])⟩

/-- C8 counterexample: for the valid 2-step sequence `[-1, 0]` (a negative
start value) the first anchor bar has height `-1 < 0` — the claim that every
bar, anchors included, has non-negative height fails. -/
theorem C8_negative_anchor_cex :
    ((computeBars (-1) [] 0).getD 0 default).height < 0 := by
  norm_num [computeBars, stepsOf, waterfall, waterfallGo]

/-- C8 amended: every INTERIOR bar has non-negative height (the delta or its
absolute value); the anchor bars' heights equal the start value and
`finalTotal + last delta` respectively, and are non-negative exactly when
those totals are — a negative start value or ending total yields a
negative-height anchor bar. -/
theorem C8_interior_heights_nonneg (v0 vl : ℚ) (mid : List ℚ) (i : ℕ)
    (h1 : 0 < i) (h2 : i < (stepsOf v0 mid vl).length - 1) :
    0 ≤ ((computeBars v0 mid vl).getD i default).height ∧
    ((computeBars v0 mid vl).getD 0 default).height = v0 ∧
    ((computeBars v0 mid vl).getD (mid.length + 1) default).height =
      finalTotal v0 mid vl + vl := by
  refine ⟨?_, ?_, ?_⟩
  · rw [computeBars_interior_char v0 vl mid i h1 h2]
    by_cases hs : 0 ≤ (stepsOf v0 mid vl).getD i 0
    · rw [if_pos hs]; exact hs
    · rw [if_neg hs]; exact abs_nonneg _
  · rw [computeBars_getD_zero]
  · rw [computeBars_getD_last, finalTotal_eq]

/-- C8 witness: the amended height facts at the concrete sequence
`[1, 2, 0]`, interior step 1. -/
theorem C8_interior_heights_nonneg_witness :
    0 < 1 ∧ (1 : ℕ) < (stepsOf 1 [2] 0).length - 1 ∧
    (0 ≤ ((computeBars 1 [2] 0).getD 1 default).height ∧
    ((computeBars 1 [2] 0).getD 0 default).height = 1 ∧
    ((computeBars 1 [2] 0).getD (List.length [(2 : ℚ)] + 1) default).height =
      finalTotal 1 [2] 0 + 0) :=
  ⟨by norm_num, by norm_num [stepsOf],
   C8_interior_heights_nonneg 1 0 [2] 1 (by norm_num) (by norm_num [stepsOf])⟩

/-- C9: for every valid step sequence the layout returns exactly one bar per
input step: the bar list has the same length as the step list. -/
theorem C9_bar_count (v0 vl : ℚ) (mid : List ℚ) :
    (computeBars v0 mid vl).length = (stepsOf v0 mid vl).length := by
  rw [computeBars_eq, stepsOf_length]
  simp [interior_length]

/-- C10: the layout loop is total over every list of deltas (it is a Lean
function, so it never raises) and returns exactly one bar per input value,
for lists of any length including 0 and 1; for a one-element input the
index-0 branch takes precedence over the last-index branch, yielding a single
anchor bar with bottom 0 and height the single value itself. -/
theorem C10_layout_total (n : ℕ) (start : ℚ) (values : List ℚ) (v : ℚ) :
    ((waterfall n start values).1).length = values.length ∧
    (waterfall 1 start [v]).1 = [⟨0, v, Color.ACCENT_BLUE⟩] := by
  refine ⟨waterfallGo_length n values 0 start, ?_⟩
  norm_num [waterfall, waterfallGo]

end Waterfall
